import Mathlib

/-!
Shallow embedding of the pocl `ImplicitLoopBarriers` loop pass
(`lib/llvmopencl/ImplicitLoopBarriers.cc`) and proofs about it.

The pass operates on LLVM IR.  We model the fragment of IR that the pass
inspects or mutates:

* an instruction is a phi node, a barrier marker (`pocl::Barrier`), a
  conditional branch carrying a condition value, an unconditional branch,
  or any other instruction; every instruction carries a numeric identity
  so that "the same instruction" is meaningful;
* a basic block is the ordered list of its instructions, the terminator
  being the last one (`BasicBlock::getTerminator`);
* a function maps block identifiers to blocks;
* a loop (`llvm::Loop`) is a set of member blocks, an optional header,
  the list of its exiting blocks and the number of its sub-loops;
* the external collaborators — `Workgroup::isKernelToProcess` and the
  `VariableUniformityAnalysis` oracle (`isUniform` on blocks and on
  values) — are an environment of boolean answer functions.
-/

/-- One LLVM IR instruction, restricted to the features the pass looks at.
The `id` field gives each pre-existing instruction an identity. -/
inductive Instr where
  | phi (id : Nat)
  | barrier (id : Nat)
  | brCond (id : Nat) (cond : Nat) (tdest fdest : Nat)
  | brUncond (id : Nat) (dest : Nat)
  | other (id : Nat)
deriving DecidableEq, Repr

/-- `isa<Barrier>(j)`: is this instruction a barrier marker? -/
def Instr.isBarrier : Instr → Bool
  | .barrier _ => true
  | _ => false

/-- `isa<PHINode>`: is this instruction a phi node?  Used to model
`BasicBlock::getFirstNonPHI`. -/
def Instr.isPhi : Instr → Bool
  | .phi _ => true
  | _ => false

/-- A function body: block identifier to the block's instruction list.
A block's terminator is the last element of its list.  The control-flow
graph is determined by the branch instructions inside the blocks. -/
def Func : Type := Nat → List Instr

/-- An `llvm::Loop` as the pass sees it: the blocks belonging to the
loop (`block_begin`/`block_end`), the header (`getHeader`), the exiting
blocks (from which `getExitingBlock` is derived), and the number of
sub-loops (`getSubLoops().size()`). -/
structure Loop where
  blocks : List Nat
  header : Option Nat
  exitingBlocks : List Nat
  numSubLoops : Nat
deriving DecidableEq, Repr

/-- `Loop::getExitingBlock`: the unique exiting block when there is
exactly one, otherwise null. -/
def Loop.getExitingBlock (L : Loop) : Option Nat :=
  match L.exitingBlocks with
  | [e] => some e
  | _ => none

/-- The external collaborators of the pass:
`Workgroup::isKernelToProcess` (kernel classifier) and
`VariableUniformityAnalysis::isUniform` on blocks and on values
(uniformity oracle, keyed here by block id resp. value id since one
invocation concerns a single function). -/
structure Env where
  isKernelToProcess : Bool
  isUniformBlock : Nat → Bool
  isUniformVal : Nat → Bool

/-- Replace the instruction list of block `b` inside `f`. -/
def setBlock (f : Func) (b : Nat) (blk : List Instr) : Func :=
  fun x => if x = b then blk else f x

/-- `dyn_cast<BranchInst>(blk->getTerminator())` followed by
`isConditional()` and `getCondition()`: the condition value of the
block's terminator when that terminator is a conditional branch. -/
def termCondOf (blk : List Instr) : Option Nat :=
  match blk.getLast? with
  | some (Instr.brCond _ c _ _) => some c
  | _ => none

/-- `Barrier::Create(brexit->getTerminator())`: insert a barrier marker
immediately before the block's terminating instruction. -/
def insertBarrierBeforeTerminator (blk : List Instr) : List Instr :=
  blk.dropLast ++ Instr.barrier 0 :: blk.getLast?.toList

/-- `Barrier::Create(loopEntry->getFirstNonPHI())`: insert a barrier
marker before the first non-phi instruction of the block, i.e. after
the leading phi nodes and before everything else. -/
def insertBarrierAtFirstNonPHI (blk : List Instr) : List Instr :=
  blk.takeWhile Instr.isPhi ++ Instr.barrier 0 :: blk.dropWhile Instr.isPhi

/-- The two insertions of the success path, in source order: first into
the exiting block before its terminator, then into the header before its
first non-phi instruction (computed on the already-updated function, which
matters when the header is the exiting block). -/
def doInsert (f : Func) (brexit loopEntry : Nat) : Func :=
  let f1 := setBlock f brexit (insertBarrierBeforeTerminator (f brexit))
  setBlock f1 loopEntry (insertBarrierAtFirstNonPHI (f1 loopEntry))

/-- The barrier scan of `ProcessLoop`: does any block of the loop
contain a barrier marker? -/
def hasBarrier (f : Func) (L : Loop) : Bool :=
  L.blocks.any fun b => (f b).any Instr.isBarrier

/-- `ImplicitLoopBarriers::AddInnerLoopBarrier`.  Returns the boolean
result of the pass together with the (possibly mutated) function. -/
def AddInnerLoopBarrier (env : Env) (f : Func) (L : Loop) : Bool × Func :=
  if L.numSubLoops > 0 then (false, f)
  else
    match L.getExitingBlock with
    | none => (false, f)
    | some brexit =>
      match L.header with
      | none => (false, f)
      | some loopEntry =>
        if !env.isUniformBlock loopEntry then (false, f)
        else
          match termCondOf (f brexit) with
          | some c =>
            if env.isUniformVal c then (true, doInsert f brexit loopEntry)
            else (false, f)
          | none => (false, f)

/-- `ImplicitLoopBarriers::ProcessLoop`. -/
def ProcessLoop (env : Env) (f : Func) (L : Loop) : Bool × Func :=
  if hasBarrier f L then (false, f)
  else AddInnerLoopBarrier env f L

/-- `ImplicitLoopBarriers::runOnLoop`. -/
def runOnLoop (env : Env) (f : Func) (L : Loop) : Bool × Func :=
  if !env.isKernelToProcess then (false, f)
  else ProcessLoop env f L

/-- Whether the control flow of one invocation reaches the
`loopEntry == NULL` guard of `AddInnerLoopBarrier` and takes its failure
branch: the kernel check, the barrier scan, the sub-loop check and the
exiting-block check must all pass, and the header must be absent. -/
def headerGuardTaken (env : Env) (f : Func) (L : Loop) : Bool :=
  if !env.isKernelToProcess then false
  else if hasBarrier f L then false
  else if L.numSubLoops > 0 then false
  else
    match L.getExitingBlock with
    | none => false
    | some _ => L.header.isNone

section Helpers

/-- The unique exiting block exists exactly when the exiting-block list
is a singleton. -/
theorem getExitingBlock_eq_some_iff (L : Loop) (e : Nat) :
    L.getExitingBlock = some e ↔ L.exitingBlocks = [e] := by
  unfold Loop.getExitingBlock
  cases hxs : L.exitingBlocks with
  | nil => simp
  | cons a t =>
    cases t with
    | nil => simp
    | cons b u => simp

/-- `getExitingBlock` is null when the number of exiting blocks is not
one. -/
theorem getExitingBlock_eq_none_of_length_ne_one (L : Loop)
    (h : L.exitingBlocks.length ≠ 1) : L.getExitingBlock = none := by
  unfold Loop.getExitingBlock
  cases hxs : L.exitingBlocks with
  | nil => rfl
  | cons a t =>
    cases t with
    | nil => exact absurd (by simp [hxs]) h
    | cons b u => rfl

/-- All conditions that the pass checks, as one proposition. -/
def SuccessConds (env : Env) (f : Func) (L : Loop) : Prop :=
  env.isKernelToProcess = true ∧
  hasBarrier f L = false ∧
  L.numSubLoops = 0 ∧
  ∃ e, L.exitingBlocks = [e] ∧
  ∃ hdr, L.header = some hdr ∧
    env.isUniformBlock hdr = true ∧
    ∃ c, termCondOf (f e) = some c ∧ env.isUniformVal c = true

/-- Exhaustive characterization of one invocation: either every check
passed and the result is `(true, doInsert f e hdr)`, or the result is
`(false, f)` and not all checks passed. -/
theorem runOnLoop_char (env : Env) (f : Func) (L : Loop) :
    (∃ e hdr,
      L.exitingBlocks = [e] ∧ L.header = some hdr ∧
      SuccessConds env f L ∧
      runOnLoop env f L = (true, doInsert f e hdr)) ∨
    (¬ SuccessConds env f L ∧ runOnLoop env f L = (false, f)) := by
  unfold runOnLoop ProcessLoop AddInnerLoopBarrier
  cases hk : env.isKernelToProcess with
  | false =>
    right
    refine ⟨?_, by simp⟩
    intro hS
    unfold SuccessConds at hS
    rw [hk] at hS
    exact Bool.noConfusion hS.1
  | true =>
    simp only [Bool.not_true, Bool.false_eq_true, if_false]
    cases hb : hasBarrier f L with
    | true =>
      right
      refine ⟨?_, by simp⟩
      intro hS
      unfold SuccessConds at hS
      rw [hb] at hS
      exact Bool.noConfusion hS.2.1
    | false =>
      simp only [Bool.false_eq_true, if_false]
      by_cases hsub : L.numSubLoops > 0
      · right
        refine ⟨?_, by simp [hsub]⟩
        intro hS
        unfold SuccessConds at hS
        obtain ⟨-, -, h0, -⟩ := hS
        omega
      · have hsub0 : L.numSubLoops = 0 := by omega
        simp only [hsub, if_false]
        cases hex : L.getExitingBlock with
        | none =>
          right
          refine ⟨?_, rfl⟩
          intro hS
          unfold SuccessConds at hS
          obtain ⟨-, -, -, e, he, -⟩ := hS
          rw [(getExitingBlock_eq_some_iff L e).mpr he] at hex
          exact Option.noConfusion hex
        | some brexit =>
          dsimp only
          have hexl : L.exitingBlocks = [brexit] :=
            (getExitingBlock_eq_some_iff L brexit).mp hex
          cases hh : L.header with
          | none =>
            right
            refine ⟨?_, rfl⟩
            intro hS
            unfold SuccessConds at hS
            obtain ⟨-, -, -, e, -, hdr, hhdr, -⟩ := hS
            rw [hh] at hhdr
            exact Option.noConfusion hhdr
          | some loopEntry =>
            dsimp only
            cases hu : env.isUniformBlock loopEntry with
            | false =>
              right
              refine ⟨?_, by simp [hu]⟩
              intro hS
              unfold SuccessConds at hS
              obtain ⟨-, -, -, e, he, hdr, hhdr, hu2, -⟩ := hS
              rw [hh] at hhdr
              cases hhdr
              rw [hu] at hu2
              exact Bool.noConfusion hu2
            | true =>
              simp only [Bool.not_true, Bool.false_eq_true, if_false]
              cases hc : termCondOf (f brexit) with
              | none =>
                right
                refine ⟨?_, rfl⟩
                intro hS
                unfold SuccessConds at hS
                obtain ⟨-, -, -, e, he, hdr, hhdr, -, c, hcond, -⟩ := hS
                have heb : e = brexit := by
                  rw [hexl] at he
                  exact (List.cons_eq_cons.mp he).1.symm
                rw [heb, hc] at hcond
                exact Option.noConfusion hcond
              | some c =>
                dsimp only
                cases hv : env.isUniformVal c with
                | false =>
                  right
                  refine ⟨?_, by simp [hv]⟩
                  intro hS
                  unfold SuccessConds at hS
                  obtain ⟨-, -, -, e, he, hdr, hhdr, -, c2, hcond, hv2⟩ := hS
                  have heb : e = brexit := by
                    rw [hexl] at he
                    exact (List.cons_eq_cons.mp he).1.symm
                  rw [heb, hc] at hcond
                  cases hcond
                  rw [hv] at hv2
                  exact Bool.noConfusion hv2
                | true =>
                  left
                  refine ⟨brexit, loopEntry, hexl, rfl, ?_, by simp [hv]⟩
                  unfold SuccessConds
                  exact ⟨hk, hb, hsub0, brexit, hexl, loopEntry, hh, hu, c, hc, hv⟩

/-- The boolean result is true exactly when every check passed. -/
theorem runOnLoop_fst_true_iff (env : Env) (f : Func) (L : Loop) :
    (runOnLoop env f L).1 = true ↔ SuccessConds env f L := by
  rcases runOnLoop_char env f L with ⟨e, hdr, -, -, hS, hres⟩ | ⟨hnS, hres⟩
  · rw [hres]
    exact ⟨fun _ => hS, fun _ => rfl⟩
  · rw [hres]
    refine ⟨fun h1 => ?_, fun hS => absurd hS hnS⟩
    exact Bool.noConfusion h1

/-- When the result is false, the function comes back untouched. -/
theorem runOnLoop_snd_of_fst_false (env : Env) (f : Func) (L : Loop)
    (h : (runOnLoop env f L).1 = false) : (runOnLoop env f L).2 = f := by
  rcases runOnLoop_char env f L with ⟨e, hdr, -, -, -, hres⟩ | ⟨-, hres⟩
  · rw [hres] at h
    exact Bool.noConfusion h
  · rw [hres]

/-- When the result is true, the mutation is exactly `doInsert` on the
unique exiting block and the header. -/
theorem runOnLoop_eq_insert_of_fst_true (env : Env) (f : Func) (L : Loop)
    (h : (runOnLoop env f L).1 = true) :
    ∃ e hdr, L.exitingBlocks = [e] ∧ L.header = some hdr ∧
      SuccessConds env f L ∧
      runOnLoop env f L = (true, doInsert f e hdr) := by
  rcases runOnLoop_char env f L with hyes | ⟨-, hres⟩
  · exact hyes
  · rw [hres] at h
    exact Bool.noConfusion h

/-- When some check fails, neither boolean success nor mutation happens. -/
theorem runOnLoop_eq_noop_of_not_conds (env : Env) (f : Func) (L : Loop)
    (h : ¬ SuccessConds env f L) : runOnLoop env f L = (false, f) := by
  rcases runOnLoop_char env f L with ⟨-, -, -, -, hS, -⟩ | ⟨-, hres⟩
  · exact absurd hS h
  · exact hres

/-- A loop already holding a barrier marker is never touched. -/
theorem runOnLoop_noop_of_hasBarrier (env : Env) (f : Func) (L : Loop)
    (h : hasBarrier f L = true) : runOnLoop env f L = (false, f) := by
  unfold runOnLoop ProcessLoop
  cases hk : env.isKernelToProcess <;> simp [h]

theorem takeWhile_append_cons_of_neg {α} (p : α → Bool) (xs : List α) (y : α)
    (ys : List α) (hy : p y = false) :
    (xs ++ y :: ys).takeWhile p = xs.takeWhile p := by
  induction xs with
  | nil => simp [List.takeWhile_cons, hy]
  | cons a xs ih =>
    simp only [List.cons_append, List.takeWhile_cons]
    cases p a <;> simp [ih]

theorem dropWhile_append_cons_of_neg {α} (p : α → Bool) (xs : List α) (y : α)
    (ys : List α) (hy : p y = false) :
    (xs ++ y :: ys).dropWhile p = xs.dropWhile p ++ y :: ys := by
  induction xs with
  | nil => simp [List.dropWhile_cons, hy]
  | cons a xs ih =>
    simp only [List.cons_append, List.dropWhile_cons]
    cases p a <;> simp [ih]

theorem getLast?_some_decomp {α} : ∀ {l : List α} {t : α},
    l.getLast? = some t → l = l.dropLast ++ [t] := by
  intro l
  induction l with
  | nil => intro t h; exact Option.noConfusion h
  | cons a l ih =>
    intro t h
    cases l with
    | nil =>
      simp only [List.getLast?_singleton, Option.some.injEq] at h
      simp [h]
    | cons b m =>
      rw [List.getLast?_cons_cons] at h
      have := ih h
      calc a :: b :: m = a :: ((b :: m).dropLast ++ [t]) := by rw [← this]
        _ = (a :: b :: m).dropLast ++ [t] := by simp [List.dropLast_cons₂]

/-- `termCondOf` succeeds only on a conditional-branch terminator. -/
theorem termCondOf_eq_some_elim (blk : List Instr) (c : Nat)
    (h : termCondOf blk = some c) :
    ∃ i a b2, blk.getLast? = some (Instr.brCond i c a b2) := by
  unfold termCondOf at h
  cases hl : blk.getLast? with
  | none => rw [hl] at h; exact Option.noConfusion h
  | some t =>
    rw [hl] at h
    cases t with
    | brCond i c2 a b2 =>
      simp only [Option.some.injEq] at h
      exact ⟨i, a, b2, by rw [h]⟩
    | phi i => exact Option.noConfusion h
    | barrier i => exact Option.noConfusion h
    | brUncond i d => exact Option.noConfusion h
    | other i => exact Option.noConfusion h

/-- `doInsert` leaves every block other than the two insertion points
untouched. -/
theorem doInsert_apply_other (f : Func) (e hdr b : Nat) (hb1 : b ≠ e)
    (hb2 : b ≠ hdr) : doInsert f e hdr b = f b := by
  unfold doInsert setBlock
  simp [hb1, hb2]

theorem doInsert_apply_exiting (f : Func) (e hdr : Nat) (hne : hdr ≠ e) :
    doInsert f e hdr e = insertBarrierBeforeTerminator (f e) := by
  unfold doInsert setBlock
  simp [Ne.symm hne]

theorem doInsert_apply_header (f : Func) (e hdr : Nat) (hne : hdr ≠ e) :
    doInsert f e hdr hdr = insertBarrierAtFirstNonPHI (f hdr) := by
  unfold doInsert setBlock
  simp [hne]

theorem doInsert_apply_same (f : Func) (e : Nat) :
    doInsert f e e e =
      insertBarrierAtFirstNonPHI (insertBarrierBeforeTerminator (f e)) := by
  unfold doInsert setBlock
  simp

/-- Inserting before the terminator, spelled on a block with a known
terminator. -/
theorem insertBeforeTerm_shape (l : List Instr) (t : Instr)
    (hl : l.getLast? = some t) :
    insertBarrierBeforeTerminator l = l.dropLast ++ [Instr.barrier 0, t] := by
  unfold insertBarrierBeforeTerminator
  rw [hl]
  rfl

/-- The two insertions into one and the same block (header = exiting
block): the phi prefix, a barrier, the remaining body, a barrier, the
terminator. -/
theorem insert_same_block_shape (l : List Instr) (t : Instr)
    (hp : t.isPhi = false) (hl : l.getLast? = some t) :
    insertBarrierAtFirstNonPHI (insertBarrierBeforeTerminator l) =
      l.takeWhile Instr.isPhi ++ Instr.barrier 0 ::
        ((l.dropWhile Instr.isPhi).dropLast ++ [Instr.barrier 0, t]) := by
  have hdec : l = l.dropLast ++ [t] := getLast?_some_decomp hl
  have hbar : (Instr.barrier 0).isPhi = false := rfl
  rw [insertBeforeTerm_shape l t hl]
  unfold insertBarrierAtFirstNonPHI
  have h1 : (l.dropLast ++ [Instr.barrier 0, t]).takeWhile Instr.isPhi
      = l.dropLast.takeWhile Instr.isPhi := by
    have := takeWhile_append_cons_of_neg Instr.isPhi l.dropLast (Instr.barrier 0) [t] hbar
    simpa using this
  have h2 : (l.dropLast ++ [Instr.barrier 0, t]).dropWhile Instr.isPhi
      = l.dropLast.dropWhile Instr.isPhi ++ [Instr.barrier 0, t] := by
    have := dropWhile_append_cons_of_neg Instr.isPhi l.dropLast (Instr.barrier 0) [t] hbar
    simpa using this
  have h3 : l.takeWhile Instr.isPhi = l.dropLast.takeWhile Instr.isPhi := by
    conv_lhs => rw [hdec]
    have := takeWhile_append_cons_of_neg Instr.isPhi l.dropLast t [] hp
    simpa using this
  have h4 : (l.dropWhile Instr.isPhi).dropLast = l.dropLast.dropWhile Instr.isPhi := by
    conv_lhs => rw [hdec]
    have := dropWhile_append_cons_of_neg Instr.isPhi l.dropLast t [] hp
    rw [show l.dropLast ++ t :: [] = l.dropLast ++ [t] from rfl] at this
    rw [this]
    exact List.dropLast_concat ..
  rw [h1, h2, h3, h4]

/-- After `doInsert`, the header block contains a barrier marker. -/
theorem doInsert_header_any_barrier (f : Func) (e hdr : Nat) :
    ((doInsert f e hdr) hdr).any Instr.isBarrier = true := by
  unfold doInsert setBlock insertBarrierAtFirstNonPHI
  simp [Instr.isBarrier]

/-- A barrier in a member block makes the whole-loop scan succeed. -/
theorem hasBarrier_of_mem (f : Func) (L : Loop) (b : Nat)
    (hb : b ∈ L.blocks) (hbar : (f b).any Instr.isBarrier = true) :
    hasBarrier f L = true := by
  unfold hasBarrier
  rw [List.any_eq_true]
  exact ⟨b, hb, hbar⟩

end Helpers

section Samples

/-- Sample environment: the function is a kernel to process and every
block and value is uniform. -/
def envAllUniform : Env := ⟨true, fun _ => true, fun _ => true⟩

/-- Sample environment: the function is not a kernel to process. -/
def envNoKernel : Env := ⟨false, fun _ => true, fun _ => true⟩

/-- Sample body: block 0 is a phi node, an ordinary instruction and a
conditional branch on value 5; every other block is empty. -/
def sampleBody : Func := fun b =>
  if b = 0 then [Instr.phi 10, Instr.other 11, Instr.brCond 12 5 0 1] else []

/-- The single-block loop over block 0, no sub-loops. -/
def sampleLoop : Loop := ⟨[0], some 0, [0], 0⟩

/-- Sample body whose loop block already holds a barrier marker. -/
def sampleBodyBarrier : Func := fun b =>
  if b = 0 then [Instr.barrier 7, Instr.brCond 8 5 0 1] else []

/-- Sample body whose loop block ends in an unconditional branch. -/
def sampleBodyUncond : Func := fun b =>
  if b = 0 then [Instr.phi 30, Instr.brUncond 31 1] else []

/-- A loop with two exiting blocks. -/
def sampleLoopTwoExits : Loop := ⟨[0, 1], some 0, [0, 1], 0⟩

end Samples

section Claims

/-- C1: `runOnLoop` returns true (and then mutates) if and only if the
containing function is a kernel to process, no block of the loop holds a
barrier marker, the loop has zero sub-loops, exactly one exiting block
and a well-defined header, the header block is uniform, the exiting
block's terminator is a conditional branch, and that branch's condition
value is uniform; in every other case it returns false. -/
theorem runOnLoop_true_iff_checks (env : Env) (f : Func) (L : Loop) :
    (runOnLoop env f L).1 = true ↔
      env.isKernelToProcess = true ∧
      hasBarrier f L = false ∧
      L.numSubLoops = 0 ∧
      ∃ e, L.exitingBlocks = [e] ∧
      ∃ hdr, L.header = some hdr ∧
        env.isUniformBlock hdr = true ∧
        ∃ c, termCondOf (f e) = some c ∧ env.isUniformVal c = true :=
  runOnLoop_fst_true_iff env f L

/-- C2: on every invocation that returns false — whichever eligibility
or uniformity check failed — the function comes back structurally
unchanged: every block keeps exactly its old instruction list, so no
instruction (in particular no barrier marker) is inserted, moved,
altered or removed, the control-flow graph (determined by the branch
instructions inside the blocks) is unchanged, and no path inserts only
one of the two markers. -/
theorem runOnLoop_false_frame (env : Env) (f : Func) (L : Loop)
    (h : (runOnLoop env f L).1 = false) : (runOnLoop env f L).2 = f :=
  runOnLoop_snd_of_fst_false env f L h

theorem runOnLoop_false_frame_sample :
    (runOnLoop envNoKernel sampleBody sampleLoop).2 = sampleBody :=
  runOnLoop_false_frame envNoKernel sampleBody sampleLoop (by decide)

/-- C3: whenever `runOnLoop` returns true, exactly two barrier markers
have been added: one immediately preceding the exiting block's
terminating instruction, and one in the header block after the leading
phi nodes and before all other instructions; every block outside the
two insertion points is untouched and the pre-existing instructions of
the touched blocks keep their number, order and identity (they reappear
verbatim around the inserted markers, including when the header is
itself the exiting block). -/
theorem runOnLoop_true_insertion_shape (env : Env) (f : Func) (L : Loop)
    (hres : (runOnLoop env f L).1 = true) :
    ∃ e hdr, L.exitingBlocks = [e] ∧ L.header = some hdr ∧
      (∀ b, b ≠ e → b ≠ hdr → (runOnLoop env f L).2 b = f b) ∧
      (hdr ≠ e → ∃ i c a b2,
        (f e).getLast? = some (Instr.brCond i c a b2) ∧
        (runOnLoop env f L).2 e =
          (f e).dropLast ++ [Instr.barrier 0, Instr.brCond i c a b2] ∧
        (runOnLoop env f L).2 hdr =
          (f hdr).takeWhile Instr.isPhi ++
            Instr.barrier 0 :: (f hdr).dropWhile Instr.isPhi) ∧
      (hdr = e → ∃ i c a b2,
        (f hdr).getLast? = some (Instr.brCond i c a b2) ∧
        (runOnLoop env f L).2 hdr =
          (f hdr).takeWhile Instr.isPhi ++ Instr.barrier 0 ::
            (((f hdr).dropWhile Instr.isPhi).dropLast ++
              [Instr.barrier 0, Instr.brCond i c a b2])) := by
  obtain ⟨e, hdr, hexl, hh, hS, heq⟩ := runOnLoop_eq_insert_of_fst_true env f L hres
  unfold SuccessConds at hS
  obtain ⟨-, -, -, e2, he2, hdr2, hh2, -, c, hc, -⟩ := hS
  have he2e : e2 = e := by
    rw [hexl] at he2
    exact (List.cons_eq_cons.mp he2).1.symm
  rw [he2e] at hc
  obtain ⟨i, a, b2, hlast⟩ := termCondOf_eq_some_elim (f e) c hc
  refine ⟨e, hdr, hexl, hh, ?_, ?_, ?_⟩
  · intro b hb1 hb2
    rw [heq]
    exact doInsert_apply_other f e hdr b hb1 hb2
  · intro hne
    refine ⟨i, c, a, b2, hlast, ?_, ?_⟩
    · rw [heq]
      dsimp only
      rw [doInsert_apply_exiting f e hdr hne]
      exact insertBeforeTerm_shape (f e) _ hlast
    · rw [heq]
      dsimp only
      rw [doInsert_apply_header f e hdr hne]
      rfl
  · intro hesame
    subst hesame
    refine ⟨i, c, a, b2, hlast, ?_⟩
    rw [heq]
    dsimp only
    rw [doInsert_apply_same f hdr]
    exact insert_same_block_shape (f hdr) _ rfl hlast

theorem runOnLoop_true_insertion_shape_sample :
    (runOnLoop envAllUniform sampleBody sampleLoop).1 = true ∧
    (∃ e hdr, sampleLoop.exitingBlocks = [e] ∧ sampleLoop.header = some hdr ∧
      (∀ b, b ≠ e → b ≠ hdr →
        (runOnLoop envAllUniform sampleBody sampleLoop).2 b = sampleBody b) ∧
      (hdr ≠ e → ∃ i c a b2,
        (sampleBody e).getLast? = some (Instr.brCond i c a b2) ∧
        (runOnLoop envAllUniform sampleBody sampleLoop).2 e =
          (sampleBody e).dropLast ++ [Instr.barrier 0, Instr.brCond i c a b2] ∧
        (runOnLoop envAllUniform sampleBody sampleLoop).2 hdr =
          (sampleBody hdr).takeWhile Instr.isPhi ++
            Instr.barrier 0 :: (sampleBody hdr).dropWhile Instr.isPhi) ∧
      (hdr = e → ∃ i c a b2,
        (sampleBody hdr).getLast? = some (Instr.brCond i c a b2) ∧
        (runOnLoop envAllUniform sampleBody sampleLoop).2 hdr =
          (sampleBody hdr).takeWhile Instr.isPhi ++ Instr.barrier 0 ::
            (((sampleBody hdr).dropWhile Instr.isPhi).dropLast ++
              [Instr.barrier 0, Instr.brCond i c a b2]))) :=
  ⟨by decide,
   runOnLoop_true_insertion_shape envAllUniform sampleBody sampleLoop (by decide)⟩

/-- C4: a loop already containing a barrier marker in any of its blocks
is rejected without mutation; consequently the transform is idempotent:
after a successful application (which puts a marker into the header, a
member block of the loop), any repeated application to that loop — under
any environment — returns false and leaves the once-mutated function
as it is, so no second pair of markers is ever inserted. -/
theorem runOnLoop_barrier_noop_and_idempotent (env : Env) (f : Func) (L : Loop) :
    (hasBarrier f L = true → runOnLoop env f L = (false, f)) ∧
    (∀ hdr, L.header = some hdr → hdr ∈ L.blocks →
      (runOnLoop env f L).1 = true →
      ∀ env2, runOnLoop env2 (runOnLoop env f L).2 L =
        (false, (runOnLoop env f L).2)) := by
  constructor
  · exact runOnLoop_noop_of_hasBarrier env f L
  · intro hdr hh hmem hres env2
    obtain ⟨e, hdr2, hexl, hh2, -, heq⟩ := runOnLoop_eq_insert_of_fst_true env f L hres
    have hd2 : hdr2 = hdr := by
      rw [hh] at hh2
      injection hh2 with h3
      exact h3.symm
    rw [heq]
    dsimp only
    apply runOnLoop_noop_of_hasBarrier
    exact hasBarrier_of_mem (doInsert f e hdr2) L hdr2 (hd2 ▸ hmem)
      (doInsert_header_any_barrier f e hdr2)

theorem runOnLoop_barrier_noop_and_idempotent_sample :
    runOnLoop envAllUniform sampleBodyBarrier sampleLoop =
      (false, sampleBodyBarrier) ∧
    runOnLoop envAllUniform
        (runOnLoop envAllUniform sampleBody sampleLoop).2 sampleLoop =
      (false, (runOnLoop envAllUniform sampleBody sampleLoop).2) :=
  ⟨(runOnLoop_barrier_noop_and_idempotent envAllUniform sampleBodyBarrier
      sampleLoop).1 (by decide),
   (runOnLoop_barrier_noop_and_idempotent envAllUniform sampleBody
      sampleLoop).2 0 rfl (by decide) (by decide) envAllUniform⟩

/-- C5: when the containing function is not a kernel to process, the
pass returns false and leaves the function unchanged, whatever the loop
looks like and whatever the uniformity oracle would answer — the
conclusion holds for every loop and every oracle, so the result is
independent of both. -/
theorem runOnLoop_nonkernel_noop (env : Env) (f : Func) (L : Loop)
    (hk : env.isKernelToProcess = false) : runOnLoop env f L = (false, f) := by
  unfold runOnLoop
  rw [hk]
  rfl

theorem runOnLoop_nonkernel_noop_sample :
    runOnLoop envNoKernel sampleBody sampleLoop = (false, sampleBody) :=
  runOnLoop_nonkernel_noop envNoKernel sampleBody sampleLoop rfl

/-- C6: when the unique exiting block's terminator is not a conditional
branch (unconditional, or not a branch at all, so `termCondOf` yields
nothing), the pass returns false without mutation, and this holds for
every environment — in particular for every answer function of the
value-uniformity oracle, so no branch-condition uniformity answer is
ever consulted and an unconditional exit is not treated as trivially
uniform. -/
theorem runOnLoop_uncond_exit_noop (env : Env) (f : Func) (L : Loop) (e : Nat)
    (hex : L.getExitingBlock = some e)
    (hterm : termCondOf (f e) = none) :
    runOnLoop env f L = (false, f) := by
  apply runOnLoop_eq_noop_of_not_conds
  intro hS
  unfold SuccessConds at hS
  obtain ⟨-, -, -, e2, he2, -, -, -, c, hc, -⟩ := hS
  have he2e : e2 = e := by
    have h2 := (getExitingBlock_eq_some_iff L e).mp hex
    rw [h2] at he2
    exact (List.cons_eq_cons.mp he2).1.symm
  rw [he2e, hterm] at hc
  exact Option.noConfusion hc

theorem runOnLoop_uncond_exit_noop_sample :
    runOnLoop envAllUniform sampleBodyUncond sampleLoop =
      (false, sampleBodyUncond) :=
  runOnLoop_uncond_exit_noop envAllUniform sampleBodyUncond sampleLoop 0
    (by decide) (by decide)

/-- C7: a loop whose number of exiting blocks is not exactly one —
zero, or more than one — is rejected with the function unchanged,
whatever the uniformity oracle would answer. -/
theorem runOnLoop_exit_count_noop (env : Env) (f : Func) (L : Loop)
    (h : L.exitingBlocks.length ≠ 1) : runOnLoop env f L = (false, f) := by
  apply runOnLoop_eq_noop_of_not_conds
  intro hS
  unfold SuccessConds at hS
  obtain ⟨-, -, -, e, he, -⟩ := hS
  rw [he] at h
  exact h rfl

theorem runOnLoop_exit_count_noop_sample :
    runOnLoop envAllUniform sampleBody sampleLoopTwoExits =
      (false, sampleBody) :=
  runOnLoop_exit_count_noop envAllUniform sampleBody sampleLoopTwoExits
    (by decide)

/-- C8: the pass is a pure, deterministic function of its per-loop
snapshot — the loop, the function body and the classifier/oracle
answers are its only inputs, no state persists between invocations, and
two invocations on identical inputs return the same boolean and perform
the same mutation. -/
theorem runOnLoop_deterministic (env1 env2 : Env) (f g : Func) (L1 L2 : Loop)
    (he : env1 = env2) (hf : f = g) (hL : L1 = L2) :
    runOnLoop env1 f L1 = runOnLoop env2 g L2 := by
  rw [he, hf, hL]

theorem runOnLoop_deterministic_sample :
    runOnLoop envAllUniform sampleBody sampleLoop =
      runOnLoop envAllUniform sampleBody sampleLoop :=
  runOnLoop_deterministic envAllUniform envAllUniform sampleBody sampleBody
    sampleLoop sampleLoop rfl rfl rfl

/-- C9: the only blocks the pass ever writes to are the loop's header
and its unique exiting block; provided these belong to the loop's block
set (as they do for every LLVM loop), every block outside the loop is
returned unchanged by every invocation, successful or not. -/
theorem runOnLoop_writes_within_loop (env : Env) (f : Func) (L : Loop)
    (hhdr : ∀ hd, L.header = some hd → hd ∈ L.blocks)
    (hexm : ∀ e ∈ L.exitingBlocks, e ∈ L.blocks) :
    ∀ b, b ∉ L.blocks → (runOnLoop env f L).2 b = f b := by
  intro b hb
  cases hres : (runOnLoop env f L).1 with
  | false => rw [runOnLoop_snd_of_fst_false env f L hres]
  | true =>
    obtain ⟨e, hdr, hexl, hh, -, heq⟩ := runOnLoop_eq_insert_of_fst_true env f L hres
    rw [heq]
    dsimp only
    apply doInsert_apply_other
    · intro hbe
      exact hb (hbe ▸ hexm e (by rw [hexl]; exact List.mem_singleton_self e))
    · intro hbh
      exact hb (hbh ▸ hhdr hdr hh)

theorem runOnLoop_writes_within_loop_sample :
    (runOnLoop envAllUniform sampleBody sampleLoop).2 5 = sampleBody 5 :=
  runOnLoop_writes_within_loop envAllUniform sampleBody sampleLoop
    (by
      intro hd h
      have h0 : sampleLoop.header = some 0 := rfl
      rw [h0] at h
      injection h with h2
      rw [← h2]
      decide)
    (by
      intro e he
      have h0 : sampleLoop.exitingBlocks = [0] := rfl
      rw [h0] at he
      simp only [List.mem_singleton] at he
      rw [he]
      decide)
    5 (by decide)

/-- C10: the entry point reaches the containing function through the
loop's header, so under the precondition that this access is
well-defined — the loop has a header — the later header-absence guard
inside the insertion routine can never take its failure branch. -/
theorem headerGuard_never_taken (env : Env) (f : Func) (L : Loop)
    (hh : L.header.isSome = true) : headerGuardTaken env f L = false := by
  obtain ⟨hd, hval⟩ := Option.isSome_iff_exists.mp hh
  unfold headerGuardTaken
  rw [hval]
  simp only [Option.isNone_some]
  repeat' split
  all_goals rfl

theorem headerGuard_never_taken_sample :
    headerGuardTaken envAllUniform sampleBody sampleLoop = false :=
  headerGuard_never_taken envAllUniform sampleBody sampleLoop (by decide)

end Claims
